import Mathlib

/-!
A shallow embedding of `derinet.py` (class `DeriNet`), faithful to the source:

* `Node` is a Python namedtuple `(lex_id, lemma, morph, pos, parent_id, children)`;
  `parent_id` is either the empty string (no parent) or an int, modelled as
  `Option Nat`; `children` holds references to node objects that live inside
  `self._data`, modelled by their positions in the data list.
* Text is modelled as `List Char`; Python dicts preserve insertion order and are
  modelled as association lists.
* Fallible Python code (IndexError, ValueError, NameError, AttributeError) is
  modelled with `Except String` / error flags; mutations performed on `self`
  before an exception is raised persist, as they do in Python.
-/

namespace Derinet

/-- The namedtuple `Node(lex_id, lemma, morph, pos, parent_id, children)`.
The field `lemma` is spelt `lemma'` because `lemma` is a Lean keyword.
`children` stores positions (into `_data`) of the appended node objects. -/
structure PNode where
  lex_id : Nat
  lemma' : List Char
  morph : List Char
  pos : List Char
  parent_id : Option Nat
  children : List Nat
deriving Repr, DecidableEq

/-- Inner dict of `_index[lemma]` : morph string ↦ id.  Insertion ordered. -/
abbrev MorphMap := List (List Char × Nat)

/-- The `_index` dict: lemma ↦ (morph ↦ id).  Insertion ordered. -/
abbrev Idx := List (List Char × MorphMap)

/-- Python dict assignment `mm[m] = v`: update in place if the key exists
(keeping its position), otherwise append at the end. -/
def setMorph : MorphMap → List Char → Nat → MorphMap
  | [], m, v => [(m, v)]
  | (m', v') :: rest, m, v =>
      if m' = m then (m', v) :: rest else (m', v') :: setMorph rest m v

/-- Python dict read `mm[m]` / `m in mm`. -/
def lookupMorph : MorphMap → List Char → Option Nat
  | [], _ => none
  | (m', v) :: rest, m => if m' = m then some v else lookupMorph rest m

/-- `index.setdefault(lemma, {}); index[lemma][morph] = v`. -/
def setIdx : Idx → List Char → List Char → Nat → Idx
  | [], l, m, v => [(l, [(m, v)])]
  | (l', mm) :: rest, l, m, v =>
      if l' = l then (l', setMorph mm m v) :: rest else (l', mm) :: setIdx rest l m v

/-- Python dict read `index.get(lemma)` / `lemma in index`. -/
def lookupIdx : Idx → List Char → Option MorphMap
  | [], _ => none
  | (l', mm) :: rest, l => if l' = l then some mm else lookupIdx rest l

/-- Two-level read: id stored under `(lemma, morph)` in `_index`, if any. -/
def lookup2 (idx : Idx) (l m : List Char) : Option Nat :=
  (lookupIdx idx l).bind (fun mm => lookupMorph mm m)

/-- Python `line.split('\t')`: split on every tab, keeping empty pieces. -/
def splitTab : List Char → List (List Char)
  | [] => [[]]
  | c :: cs =>
      match splitTab cs with
      | [] => [[]]
      | p :: ps => if c = '\t' then [] :: p :: ps else (c :: p) :: ps

/-- Python `s.strip('\n')`: drop newline characters from both ends. -/
def stripNL (cs : List Char) : List Char :=
  ((cs.dropWhile (fun c => c = '\n')).reverse.dropWhile (fun c => c = '\n')).reverse

/-- Join pieces with a tab, as `print(*fields, sep='\t')` does. -/
def intercalateTab : List (List Char) → List Char
  | [] => []
  | [p] => p
  | p :: q :: ps => p ++ '\t' :: intercalateTab (q :: ps)

/-- The decimal digit character for `d < 10`, as Python `str` produces. -/
def digitCh (d : Nat) : Char := Char.ofNat (48 + d)

/-- Numeric value of a decimal digit character. -/
def charToDigit (c : Char) : Nat := c.toNat - 48

/-- Python `str(n)` for a non-negative int: decimal digits, no sign. -/
def natChars (n : Nat) : List Char :=
  if _h : n < 10 then [digitCh n] else natChars (n / 10) ++ [digitCh (n % 10)]
  termination_by n
  decreasing_by exact Nat.div_lt_self (by omega) (by omega)

/-- Python `int(s)` restricted to the strings this program ever feeds it:
a non-empty run of decimal digits (the lenient handling of signs and
surrounding whitespace is never exercised by the repository).  Returns
`none` where Python raises `ValueError`. -/
def parseNat? (cs : List Char) : Option Nat :=
  if cs ≠ [] ∧ cs.all (fun c => c.isDigit) then
    some (cs.foldl (fun a c => 10 * a + charToDigit c) 0)
  else none

/-- One line of `_read_nodes_from_file`:
`lex_id, lemma, morph, pos, parent_id = line.strip('\n').split('\t')` followed by
`Node(int(lex_id), lemma, morph, pos, '' if parent_id == '' else int(parent_id), [])`.
Unpacking fails (ValueError) unless there are exactly five fields. -/
def decodeLine (line : List Char) :
    Except String (Nat × List Char × List Char × List Char × Option Nat) :=
  match splitTab (stripNL line) with
  | [f0, f1, f2, f3, f4] =>
      match parseNat? f0 with
      | none => .error "ValueError: invalid literal for int"
      | some i =>
          if f4 = [] then .ok (i, f1, f2, f3, none)
          else
            match parseNat? f4 with
            | none => .error "ValueError: invalid literal for int"
            | some p => .ok (i, f1, f2, f3, some p)
  | _ => .error "ValueError: wrong number of fields to unpack"

/-- The loop of `_read_nodes_from_file`: builds `data` (appending one `Node`
per line, with empty `children`) and `index`
(`index.setdefault(lemma, {}); index[lemma][morph] = int(lex_id)`). -/
def readNodes : List (List Char) → List PNode × Idx → Except String (List PNode × Idx)
  | [], acc => .ok acc
  | line :: rest, (data, index) =>
      match decodeLine line with
      | .error e => .error e
      | .ok (i, lm, mo, ps, par) =>
          readNodes rest (data ++ [⟨i, lm, mo, ps, par, []⟩], setIdx index lm mo i)

/-- In-place update of one list slot (Python `xs[i] = f(xs[i])`). -/
def modifyAt (f : PNode → PNode) : Nat → List PNode → List PNode
  | _, [] => []
  | 0, x :: xs => f x :: xs
  | n + 1, x :: xs => x :: modifyAt f n xs

/-- `parent_id` of the node at position `j` of the data list. -/
def parentIdAt (data : List PNode) (j : Nat) : Option Nat :=
  match data.get? j with
  | some nd => nd.parent_id
  | none => none

/-- `lemma` of the node at position `j` (dummy for out of range). -/
def lemmaAt (data : List PNode) (j : Nat) : List Char :=
  match data.get? j with
  | some nd => nd.lemma'
  | none => []

/-- `lex_id` of the node at position `j` (dummy for out of range). -/
def lexIdAt (data : List PNode) (j : Nat) : Nat :=
  match data.get? j with
  | some nd => nd.lex_id
  | none => 0

/-- `children` of the node at position `j` (dummy for out of range). -/
def childrenAt (data : List PNode) (j : Nat) : List Nat :=
  match data.get? j with
  | some nd => nd.children
  | none => []

/-- The iteration sequence of `_populate_children`: the loop
`for node in self._data` reads each node's `parent_id`; only `children`
lists are mutated, so the reads are the fixed (position, parent_id) pairs. -/
def popPairs (data : List PNode) : List (Nat × Option Nat) :=
  (List.range data.length).map (fun j => (j, parentIdAt data j))

/-- The body of `_populate_children`:
`if node.parent_id != '': self._data[node.parent_id].children.append(node)`.
The appended node object is represented by its position `j`; an out-of-range
`parent_id` raises IndexError, leaving the mutations made so far in place. -/
def popGo : List PNode → List (Nat × Option Nat) → List PNode × Option String
  | d, [] => (d, none)
  | d, (_, none) :: rest => popGo d rest
  | d, (j, some p) :: rest =>
      if p < d.length then
        popGo (modifyAt (fun nd => { nd with children := nd.children ++ [j] }) p d) rest
      else (d, some "IndexError: list index out of range")

/-- `DeriNet._populate_children` on a data list. -/
def populateChildren (data : List PNode) : List PNode × Option String :=
  popGo data (popPairs data)

/-- The child positions a run of `popGo` appends to the node at position `q`. -/
def chAdds (pairs : List (Nat × Option Nat)) (q : Nat) : List Nat :=
  (pairs.filter (fun e => e.2 == some q)).map Prod.fst

/-- The mutable state of a `DeriNet` object: `_data`, `_index`, `_fname`. -/
structure DeriNet where
  _data : List PNode
  _index : Idx
  _fname : Option (List Char)
deriving Repr, DecidableEq

/-- `DeriNet.__init__`. -/
def emptyDeriNet : DeriNet := ⟨[], [], none⟩

/-- `DeriNet.load`, with the file's lines supplied directly (file existence
and I/O are external concerns).  Faithful to the source:
1. `self._data, self._index = self._read_nodes_from_file(fname)` assigns
   before any later failure, so a partially built store persists;
2. the numeration check reads `self._data[-1]` (IndexError on an empty list)
   and its warning message formats the undefined name `i`
   (`'...indexed {}'.format(i)`), so entering the warning branch raises
   NameError;
3. `self._populate_children()` may raise IndexError on a dangling parent. -/
def loadModel (lines : List (List Char)) (st : DeriNet) (fname : List Char) :
    DeriNet × Except String Unit :=
  match readNodes lines ([], []) with
  | .error e => (st, .error e)
  | .ok (data, index) =>
      let st1 : DeriNet := { st with _data := data, _index := index }
      match data.getLast? with
      | none => (st1, .error "IndexError: list index out of range")
      | some lastN =>
          if data.length - 1 ≠ lastN.lex_id then
            (st1, .error "NameError: name i is not defined")
          else
            match populateChildren data with
            | (d, some e) => ({ st1 with _data := d }, .error e)
            | (d, none) => ({ st1 with _data := d, _fname := some fname }, .ok ())

/-- Strict lexicographic comparison of character lists (Python `str` `<`). -/
def lexLt : List Char → List Char → Bool
  | _, [] => false
  | [], _ :: _ => true
  | a :: as, b :: bs => if a < b then true else if b < a then false else lexLt as bs

/-- The sort key of `lex_sort`: `(x.lemma.lower(), x.morph)`, compared as a
Python tuple. -/
def keyLt (a b : PNode) : Bool :=
  if lexLt (a.lemma'.map Char.toLower) (b.lemma'.map Char.toLower) then true
  else if lexLt (b.lemma'.map Char.toLower) (a.lemma'.map Char.toLower) then false
  else lexLt a.morph b.morph

/-- Insert a node into an already sorted list, placing it before the first
element that is not strictly below it.  Equal-key elements of the tail came
later in the original order, so placing the new node before them preserves
stability. -/
def insertNode (x : PNode) : List PNode → List PNode
  | [] => [x]
  | y :: ys => if keyLt y x then y :: insertNode x ys else x :: y :: ys

/-- `self._data.sort(key=lambda x: (x.lemma.lower(), x.morph))`: Python's
sort is stable and ascending; this stable insertion sort produces the same
list. -/
def sortNodes : List PNode → List PNode
  | [] => []
  | x :: xs => insertNode x (sortNodes xs)

/-- `enumerate(xs)` starting at `k`. -/
def enumNodes (k : Nat) : List PNode → List (Nat × PNode)
  | [] => []
  | x :: xs => (k, x) :: enumNodes (k + 1) xs

/-- The first reindex loop of `lex_sort`:
`for i, node in enumerate(self._data): reverse_id_index[node[0]] = i`,
over `reverse_id_index = [0] * len(self._data)`.  `node[0]` is `lex_id`;
an out-of-range value raises IndexError. -/
def buildRev : List Nat → List (Nat × PNode) → Except String (List Nat)
  | arr, [] => .ok arr
  | arr, (i, nd) :: rest =>
      if nd.lex_id < arr.length then buildRev (arr.set nd.lex_id i) rest
      else .error "IndexError: list assignment index out of range"

/-- The rewrite of one `parent_id` during reindexing:
`'' if node.parent_id == '' else reverse_id_index[node.parent_id]`;
an out-of-range `parent_id` raises IndexError. -/
def mapParent (rev : List Nat) : Option Nat → Except String (Option Nat)
  | none => .ok none
  | some p =>
      match rev.get? p with
      | some np => .ok (some np)
      | none => .error "IndexError: list index out of range"

/-- The second reindex loop of `lex_sort`:
`self._data[i] = node._replace(lex_id=i, parent_id='' if ... else
reverse_id_index[node.parent_id], children=[])`.  Each slot is rewritten from
the node read at that slot, so the loop is a map over the enumerated list. -/
def reindexNodes (rev : List Nat) : List (Nat × PNode) → Except String (List PNode)
  | [] => .ok []
  | (i, nd) :: rest =>
      match mapParent rev nd.parent_id with
      | .error e => .error e
      | .ok par =>
          match reindexNodes rev rest with
          | .error e => .error e
          | .ok tail => .ok ({ nd with lex_id := i, parent_id := par, children := [] } :: tail)

/-- `DeriNet.lex_sort` on the data list: stable sort by
`(lemma.lower(), morph)`, rebuild of `reverse_id_index`, reindexing of
`lex_id`/`parent_id` with `children` reset, then `_populate_children`. -/
def lexSortData (data : List PNode) : Except String (List PNode) :=
  match buildRev (List.replicate data.length 0) (enumNodes 0 (sortNodes data)) with
  | .error e => .error e
  | .ok rev =>
      match reindexNodes rev (enumNodes 0 (sortNodes data)) with
      | .error e => .error e
      | .ok reindexed =>
          match populateChildren reindexed with
          | (d, none) => .ok d
          | (_, some e) => .error e

/-- `DeriNet.lex_sort` as a method: it rewrites `self._data` and never
touches `self._index` or `self._fname`. -/
def lexSortState (st : DeriNet) : Except String DeriNet :=
  (lexSortData st._data).map (fun d => { st with _data := d })

/-- `DeriNet.get_id_by_lemma(lemma, morph=None)`, on the `_index` dict.
Returns `None` both when the lemma is absent and when it is ambiguous. -/
def get_id_by_lemma (index : Idx) (lm : List Char) (morph : Option (List Char)) :
    Option Nat :=
  match lookupIdx index lm with
  | none => none
  | some lemma_index =>
      if lemma_index.length = 1 then (lemma_index.map Prod.snd).head?
      else
        match morph with
        | some m =>
            match lookupMorph lemma_index m with
            | some v => some v
            | none => none
        | none => none

/-- The nested list `[lexeme, [subtrees...]]` returned by
`get_subtree_by_id`. -/
inductive STree : Type where
  | node : PNode → List STree → STree

/-- `DeriNet.get_subtree_by_id`.  The comprehension
`[self.get_subtree_by_id(child.id) for child in lexeme.children]` evaluates
`child.id`, but `Node` has no attribute `id` (the field is `lex_id`), so the
first child raises AttributeError and the recursion is never reached. -/
def get_subtree_by_id (data : List PNode) (lex_id : Nat) : Except String STree :=
  match data.get? lex_id with
  | none => .error "IndexError: list index out of range"
  | some lexeme =>
      match lexeme.children with
      | [] => .ok (STree.node lexeme [])
      | _ :: _ => .error "AttributeError: Node object has no attribute id"

/-- `DeriNet.update_from_file`: the body is `pass`; the call returns `None`
successfully and changes nothing. -/
def update_from_file (st : DeriNet) (_fname : List Char) :
    DeriNet × Except String Unit :=
  (st, .ok ())

/-- One output line of `DeriNet.save`: `print(*lexeme[:-1], sep='\t')`, i.e.
the first five fields (everything but `children`) joined by tabs; an absent
parent prints as the empty string. -/
def encodeNode (nd : PNode) : List Char :=
  intercalateTab
    [natChars nd.lex_id, nd.lemma', nd.morph, nd.pos,
     match nd.parent_id with
     | none => []
     | some p => natChars p]

/-- The parent/child edges of a data list, as (child lemma, parent lemma)
pairs: one pair for every node whose `parent_id` is an in-range position. -/
def storeEdges (data : List PNode) : List (List Char × List Char) :=
  (List.range data.length).filterMap (fun j =>
    match parentIdAt data j with
    | some p =>
        match data.get? p with
        | some pn => some (lemmaAt data j, pn.lemma')
        | none => none
    | none => none)

/-- Every present `parent_id` is an in-range position. -/
def parentsInRange (data : List PNode) : Bool :=
  data.all (fun nd =>
    match nd.parent_id with
    | none => true
    | some p => decide (p < data.length))

/-- Every node's `lex_id` equals its position (ids are exactly `0..N-1`,
in order). -/
def idsCanonical (data : List PNode) : Bool :=
  (List.range data.length).all (fun j => lexIdAt data j == j)

/-- All `children` lists are empty (the state right after
`_read_nodes_from_file`). -/
def childrenEmpty (data : List PNode) : Bool :=
  data.all (fun nd => nd.children.isEmpty)

/-- Some node's `parent_id` points outside the data list. -/
def danglingB (data : List PNode) : Bool :=
  data.any (fun nd =>
    match nd.parent_id with
    | none => false
    | some p => decide (data.length ≤ p))

/-- Decidable equality of `Except` results, used to state claims by `decide`. -/
instance {e a : Type} [DecidableEq e] [DecidableEq a] : DecidableEq (Except e a) := fun x y =>
  match x, y with
  | .ok v, .ok w =>
      if h : v = w then .isTrue (by rw [h]) else .isFalse (by intro hc; cases hc; exact h rfl)
  | .error v, .error w =>
      if h : v = w then .isTrue (by rw [h]) else .isFalse (by intro hc; cases hc; exact h rfl)
  | .ok _, .error _ => .isFalse (by intro hc; cases hc)
  | .error _, .ok _ => .isFalse (by intro hc; cases hc)

/-! ## Helper lemmas -/

theorem length_modifyAt (f : PNode → PNode) :
    ∀ (i : Nat) (l : List PNode), (modifyAt f i l).length = l.length
  | i, [] => by cases i <;> rfl
  | 0, _ :: _ => rfl
  | n + 1, x :: xs => by simp [modifyAt, length_modifyAt f n xs]

theorem get?_modifyAt (f : PNode → PNode) (i j : Nat) (l : List PNode) :
    (modifyAt f i l).get? j = if i = j then (l.get? j).map f else l.get? j := by
  induction l generalizing i j with
  | nil => simp [modifyAt]
  | cons x xs ih =>
    cases i with
    | zero =>
      cases j with
      | zero => simp [modifyAt]
      | succ j => simp [modifyAt]
    | succ i =>
      cases j with
      | zero => simp [modifyAt]
      | succ j => simpa [modifyAt] using ih i j

theorem chAdds_cons_none (j : Nat) (rest : List (Nat × Option Nat)) (q : Nat) :
    chAdds ((j, none) :: rest) q = chAdds rest q := by
  simp [chAdds]

theorem chAdds_cons_some (j p : Nat) (rest : List (Nat × Option Nat)) (q : Nat) :
    chAdds ((j, some p) :: rest) q =
      if p = q then j :: chAdds rest q else chAdds rest q := by
  by_cases h : p = q
  · subst h
    simp [chAdds, List.filter]
  · have hb : (p == q) = false := by simp [h]
    simp [chAdds, List.filter, hb, h]

theorem popGo_ok : ∀ (pairs : List (Nat × Option Nat)) (d : List PNode),
    (∀ e ∈ pairs, ∀ p, e.2 = some p → p < d.length) →
    ∃ res, popGo d pairs = (res, none) ∧ res.length = d.length ∧
      ∀ q, res.get? q =
        (d.get? q).map (fun nd => { nd with children := nd.children ++ chAdds pairs q })
  | [], d, _ => by
    refine ⟨d, rfl, rfl, fun q => ?_⟩
    cases d.get? q <;> simp [chAdds]
  | (j, none) :: rest, d, h => by
    obtain ⟨res, h1, h2, h3⟩ :=
      popGo_ok rest d (fun e he p hp => h e (List.mem_cons_of_mem _ he) p hp)
    refine ⟨res, by simpa [popGo] using h1, h2, fun q => ?_⟩
    rw [h3 q]
    cases d.get? q <;> simp [chAdds]
  | (j, some p) :: rest, d, h => by
    have hp : p < d.length := h (j, some p) (List.mem_cons_self _ _) p rfl
    set d' := modifyAt (fun nd => { nd with children := nd.children ++ [j] }) p d with hd'
    have hlen : d'.length = d.length := length_modifyAt _ _ _
    obtain ⟨res, h1, h2, h3⟩ :=
      popGo_ok rest d' (fun e he q hq => by
        rw [hlen]; exact h e (List.mem_cons_of_mem _ he) q hq)
    refine ⟨res, ?_, by rw [h2, hlen], ?_⟩
    · simpa [popGo, hp] using h1
    · intro q
      rw [h3 q, hd', get?_modifyAt]
      by_cases hpq : p = q
      · subst hpq
        cases hdq : d.get? p with
        | none => simp [chAdds_cons_some]
        | some nd => simp [chAdds_cons_some, List.append_assoc]
      · cases hdq : d.get? q with
        | none => simp [hpq, chAdds_cons_some]
        | some nd => simp [hpq, chAdds_cons_some]

theorem popGo_length : ∀ (pairs : List (Nat × Option Nat)) (d : List PNode),
    (popGo d pairs).1.length = d.length
  | [], _ => rfl
  | (_, none) :: rest, d => by simpa [popGo] using popGo_length rest d
  | (j, some p) :: rest, d => by
    by_cases hp : p < d.length
    · simpa [popGo, hp, length_modifyAt] using
        popGo_length rest (modifyAt (fun nd => { nd with children := nd.children ++ [j] }) p d)
    · simp [popGo, hp]

theorem popGo_err : ∀ (pairs : List (Nat × Option Nat)) (d : List PNode),
    (∃ e ∈ pairs, ∃ p, e.2 = some p ∧ d.length ≤ p) →
    ∃ res msg, popGo d pairs = (res, some msg)
  | [], _, h => by simp at h
  | (j, none) :: rest, d, h => by
    obtain ⟨e, he, p, hp, hge⟩ := h
    rcases List.mem_cons.mp he with rfl | he'
    · cases hp
    · obtain ⟨res, msg, hr⟩ := popGo_err rest d ⟨e, he', p, hp, hge⟩
      exact ⟨res, msg, by simpa [popGo] using hr⟩
  | (j, some p) :: rest, d, h => by
    by_cases hlt : p < d.length
    · obtain ⟨e, he, q, hq, hge⟩ := h
      rcases List.mem_cons.mp he with rfl | he'
      · cases hq; omega
      · set d' := modifyAt (fun nd => { nd with children := nd.children ++ [j] }) p d with hd'
        have hlen : d'.length = d.length := length_modifyAt _ _ _
        obtain ⟨res, msg, hr⟩ := popGo_err rest d' ⟨e, he', q, hq, by rw [hlen]; exact hge⟩
        exact ⟨res, msg, by simpa [popGo, hlt] using hr⟩
    · exact ⟨d, "IndexError: list index out of range", by simp [popGo, hlt]⟩

theorem parentIdAt_eq {data : List PNode} {j : Nat} {nd : PNode}
    (hg : data.get? j = some nd) : parentIdAt data j = nd.parent_id := by
  unfold parentIdAt; rw [hg]

theorem parentIdAt_none {data : List PNode} {j : Nat}
    (hg : data.get? j = none) : parentIdAt data j = none := by
  unfold parentIdAt; rw [hg]

theorem lemmaAt_eq {data : List PNode} {j : Nat} {nd : PNode}
    (hg : data.get? j = some nd) : lemmaAt data j = nd.lemma' := by
  unfold lemmaAt; rw [hg]

theorem lexIdAt_eq {data : List PNode} {j : Nat} {nd : PNode}
    (hg : data.get? j = some nd) : lexIdAt data j = nd.lex_id := by
  unfold lexIdAt; rw [hg]

theorem childrenAt_eq {data : List PNode} {j : Nat} {nd : PNode}
    (hg : data.get? j = some nd) : childrenAt data j = nd.children := by
  unfold childrenAt; rw [hg]

theorem chAdds_popPairs (data : List PNode) (q : Nat) :
    chAdds (popPairs data) q =
      (List.range data.length).filter (fun j => parentIdAt data j == some q) := by
  unfold chAdds popPairs
  generalize List.range data.length = l
  induction l with
  | nil => rfl
  | cons j t ih =>
    by_cases hj : (parentIdAt data j == some q) = true
    · simp [List.filter, hj, ih]
    · simp only [Bool.not_eq_true] at hj
      simp [List.filter, hj, ih]

theorem mem_popPairs {data : List PNode} {e : Nat × Option Nat} (h : e ∈ popPairs data) :
    e.1 < data.length ∧ e.2 = parentIdAt data e.1 := by
  unfold popPairs at h
  obtain ⟨j, hj, rfl⟩ := List.mem_map.mp h
  exact ⟨List.mem_range.mp hj, rfl⟩

theorem parentsInRange_spec {data : List PNode} (h : parentsInRange data = true) :
    ∀ j p, parentIdAt data j = some p → p < data.length := by
  intro j p hp
  cases hg : data.get? j with
  | none => rw [parentIdAt_none hg] at hp; cases hp
  | some nd =>
    rw [parentIdAt_eq hg] at hp
    have hmem : nd ∈ data := List.get?_mem hg
    have hall := (List.all_eq_true.mp h) nd hmem
    rw [hp] at hall
    simpa using hall

theorem idsCanonical_spec {data : List PNode} (h : idsCanonical data = true) :
    ∀ q, q < data.length → lexIdAt data q = q := by
  intro q hq
  have := (List.all_eq_true.mp h) q (List.mem_range.mpr hq)
  simpa using this

theorem childrenEmpty_spec {data : List PNode} (h : childrenEmpty data = true) :
    ∀ j nd, data.get? j = some nd → nd.children = [] := by
  intro j nd hg
  have hmem : nd ∈ data := List.get?_mem hg
  have := (List.all_eq_true.mp h) nd hmem
  simpa [List.isEmpty_iff] using this

theorem populateChildren_ok {data : List PNode}
    (h : ∀ j p, parentIdAt data j = some p → p < data.length) :
    ∃ res, populateChildren data = (res, none) ∧ res.length = data.length ∧
      ∀ q, res.get? q = (data.get? q).map (fun nd =>
        { nd with children := nd.children ++
            (List.range data.length).filter (fun j => parentIdAt data j == some q) }) := by
  have hp : ∀ e ∈ popPairs data, ∀ p, e.2 = some p → p < data.length := by
    intro e he p hpe
    obtain ⟨-, h2⟩ := mem_popPairs he
    exact h e.1 p (h2 ▸ hpe)
  obtain ⟨res, h1, h2, h3⟩ := popGo_ok (popPairs data) data hp
  exact ⟨res, h1, h2, fun q => by rw [h3 q, chAdds_popPairs]⟩

theorem populateChildren_err {data : List PNode} (h : danglingB data = true) :
    ∃ res msg, populateChildren data = (res, some msg) ∧ res.length = data.length := by
  obtain ⟨nd, hmem, hnd⟩ := List.any_eq_true.mp h
  obtain ⟨p, hp, hge⟩ : ∃ p, nd.parent_id = some p ∧ data.length ≤ p := by
    cases hpar : nd.parent_id with
    | none => simp [hpar] at hnd
    | some p =>
      rw [hpar] at hnd
      exact ⟨p, rfl, by simpa using hnd⟩
  obtain ⟨⟨j, hjlen⟩, hj⟩ := List.mem_iff_get.mp hmem
  have hg' : data.get? j = some nd := by rw [List.get?_eq_get hjlen, hj]
  have hpair : (j, some p) ∈ popPairs data := by
    unfold popPairs
    refine List.mem_map.mpr ⟨j, List.mem_range.mpr hjlen, ?_⟩
    rw [parentIdAt_eq hg', hp]
  obtain ⟨res, msg, hr⟩ := popGo_err (popPairs data) data ⟨(j, some p), hpair, p, rfl, hge⟩
  refine ⟨res, msg, hr, ?_⟩
  have := popGo_length (popPairs data) data
  rw [hr] at this
  exact this

theorem readNodes_ok : ∀ (lines : List (List Char)) (data0 : List PNode) (idx0 : Idx)
    {data : List PNode} {idx : Idx},
    readNodes lines (data0, idx0) = .ok (data, idx) →
    ∃ ns : List PNode, data = data0 ++ ns ∧ ns.length = lines.length ∧
      (∀ nd ∈ ns, nd.children = []) ∧
      idx = ns.foldl (fun a nd => setIdx a nd.lemma' nd.morph nd.lex_id) idx0
  | [], data0, idx0, data, idx, h => by
    obtain ⟨h1, h2⟩ : data0 = data ∧ idx0 = idx := by
      cases h
      exact ⟨rfl, rfl⟩
    exact ⟨[], by rw [← h1, List.append_nil], rfl, by simp, by rw [← h2]; rfl⟩
  | line :: rest, data0, idx0, data, idx, h => by
    unfold readNodes at h
    cases hd : decodeLine line with
    | error e => rw [hd] at h; cases h
    | ok r =>
      rw [hd] at h
      obtain ⟨i, lm, mo, ps, par⟩ := r
      obtain ⟨ns, h1, h2, h3, h4⟩ := readNodes_ok rest _ _ h
      refine ⟨⟨i, lm, mo, ps, par, []⟩ :: ns, ?_, by simp [h2], ?_, ?_⟩
      · rw [h1]; simp
      · intro nd hnd
        rcases List.mem_cons.mp hnd with rfl | hnd'
        · rfl
        · exact h3 nd hnd'
      · rw [h4]; rfl

theorem lookupMorph_setMorph (m m' : List Char) (v : Nat) : ∀ (mm : MorphMap),
    lookupMorph (setMorph mm m v) m' = if m = m' then some v else lookupMorph mm m'
  | [] => by by_cases h : m = m' <;> simp [setMorph, lookupMorph, h]
  | (mk, mv) :: rest => by
    unfold setMorph
    by_cases h1 : mk = m
    · subst h1
      simp only [if_pos rfl]
      unfold lookupMorph
      by_cases h2 : mk = m' <;> simp [h2]
    · simp only [if_neg h1]
      unfold lookupMorph
      by_cases h2 : mk = m'
      · have hmm' : ¬(m = m') := fun hc => h1 (by rw [hc, h2])
        simp [h2, hmm']
      · simp [h2, lookupMorph_setMorph m m' v rest]

theorem lookupIdx_setIdx_self (l m : List Char) (v : Nat) : ∀ (idx : Idx),
    lookupIdx (setIdx idx l m v) l = some (setMorph ((lookupIdx idx l).getD []) m v)
  | [] => by simp [setIdx, lookupIdx, setMorph]
  | (lk, mm) :: rest => by
    unfold setIdx
    by_cases h1 : lk = l
    · subst h1
      simp [lookupIdx]
    · simp only [if_neg h1]
      unfold lookupIdx
      simp [h1, lookupIdx_setIdx_self l m v rest]

theorem lookupIdx_setIdx_ne {l l' : List Char} (h : l ≠ l') (m : List Char) (v : Nat) :
    ∀ (idx : Idx), lookupIdx (setIdx idx l m v) l' = lookupIdx idx l'
  | [] => by simp [setIdx, lookupIdx, fun hc => h hc]
  | (lk, mm) :: rest => by
    unfold setIdx
    by_cases h1 : lk = l
    · subst h1
      have h2 : ¬(lk = l') := h
      simp [lookupIdx, h2]
    · simp only [if_neg h1]
      unfold lookupIdx
      by_cases h2 : lk = l' <;> simp [h2, lookupIdx_setIdx_ne h m v rest]

theorem lookup2_setIdx (idx : Idx) (l m l' m' : List Char) (v : Nat) :
    lookup2 (setIdx idx l m v) l' m' =
      if l = l' ∧ m = m' then some v else lookup2 idx l' m' := by
  by_cases hl : l = l'
  · subst hl
    unfold lookup2
    rw [lookupIdx_setIdx_self]
    simp only [Option.some_bind]
    rw [lookupMorph_setMorph]
    by_cases hm : m = m'
    · simp [hm]
    · simp only [if_neg hm]
      cases lookupIdx idx l <;> simp [lookupMorph, hm]
  · unfold lookup2
    rw [lookupIdx_setIdx_ne hl]
    have hcond : ¬(l = l' ∧ m = m') := fun hc => hl hc.1
    simp [hcond]

theorem lookup2_foldl (L M : List Char) (ns : List PNode) : ∀ (idx0 : Idx),
    lookup2 (ns.foldl (fun a nd => setIdx a nd.lemma' nd.morph nd.lex_id) idx0) L M =
      match (ns.filter (fun nd => nd.lemma' == L && nd.morph == M)).getLast? with
      | some nd => some nd.lex_id
      | none => lookup2 idx0 L M := by
  induction ns using List.reverseRecOn with
  | nil => intro idx0; rfl
  | append_singleton xs x ih =>
    intro idx0
    rw [List.foldl_append, List.foldl_cons, List.foldl_nil, lookup2_setIdx,
      List.filter_append]
    by_cases hx : (x.lemma' == L && x.morph == M) = true
    · obtain ⟨hL, hM⟩ : x.lemma' = L ∧ x.morph = M := by
        constructor <;> [exact beq_iff_eq.mp (Bool.and_elim_left hx);
          exact beq_iff_eq.mp (Bool.and_elim_right hx)]
      simp [List.filter, hx, hL, hM]
    · have hcond : ¬(x.lemma' = L ∧ x.morph = M) := by
        intro ⟨hL, hM⟩
        exact hx (by simp [hL, hM])
      simp [List.filter, hx, hcond, ih idx0]

theorem loadModel_ok {lines : List (List Char)} {data : List PNode} {idx : Idx}
    (hread : readNodes lines ([], []) = .ok (data, idx))
    (hlast : (data.getLast?).map PNode.lex_id = some (data.length - 1))
    (hpar : parentsInRange data = true) (fname : List Char) :
    ∃ res, loadModel lines emptyDeriNet fname =
      (⟨res, idx, some fname⟩, .ok ()) ∧
      res.length = data.length ∧
      ∀ q, res.get? q = (data.get? q).map (fun nd =>
        { nd with children := nd.children ++
            (List.range data.length).filter (fun j => parentIdAt data j == some q) }) := by
  obtain ⟨res, hpop, hlen, hchar⟩ := populateChildren_ok (parentsInRange_spec hpar)
  refine ⟨res, ?_, hlen, hchar⟩
  unfold loadModel
  rw [hread]
  cases hg : data.getLast? with
  | none => rw [hg] at hlast; cases hlast
  | some lastN =>
    have hlex : lastN.lex_id = data.length - 1 := by
      rw [hg] at hlast
      simpa using hlast
    simp [hg, hlex, hpop, emptyDeriNet]

theorem loadModel_dangling {lines : List (List Char)} {data : List PNode} {idx : Idx}
    (hread : readNodes lines ([], []) = .ok (data, idx))
    (hdang : danglingB data = true) (fname : List Char) :
    ∃ st e, loadModel lines emptyDeriNet fname = (st, .error e) ∧
      st._index = idx ∧ st._data.length = data.length ∧ data ≠ [] := by
  have hne : data ≠ [] := by
    obtain ⟨nd, hmem, -⟩ := List.any_eq_true.mp hdang
    exact List.ne_nil_of_mem hmem
  unfold loadModel
  rw [hread]
  cases hg : data.getLast? with
  | none => exact absurd (List.getLast?_eq_none_iff.mp hg) hne
  | some lastN =>
    by_cases hc : data.length - 1 ≠ lastN.lex_id
    · refine ⟨⟨data, idx, emptyDeriNet._fname⟩, "NameError: name i is not defined", ?_, rfl, rfl, hne⟩
      simp [hg, hc, emptyDeriNet]
    · obtain ⟨res, msg, hpop, hlen⟩ := populateChildren_err hdang
      refine ⟨⟨res, idx, emptyDeriNet._fname⟩, msg, ?_, rfl, hlen, hne⟩
      simp [hg, hc, hpop, emptyDeriNet]

theorem digitCh_facts : ∀ d, d < 10 →
    (digitCh d).isDigit = true ∧ digitCh d ≠ '\t' ∧ digitCh d ≠ '\n' ∧
      charToDigit (digitCh d) = d := by decide

theorem natChars_digits (n : Nat) : ∀ c ∈ natChars n, ∃ d, d < 10 ∧ c = digitCh d := by
  induction n using natChars.induct with
  | case1 n h =>
    intro c hc
    rw [natChars, dif_pos h] at hc
    simp only [List.mem_singleton] at hc
    exact ⟨n, h, hc⟩
  | case2 n h ih =>
    intro c hc
    rw [natChars, dif_neg h] at hc
    rcases List.mem_append.mp hc with h1 | h2
    · exact ih c h1
    · simp only [List.mem_singleton] at h2
      exact ⟨n % 10, Nat.mod_lt n (by omega), h2⟩

theorem natChars_ne_nil (n : Nat) : natChars n ≠ [] := by
  rw [natChars]
  by_cases h : n < 10 <;> simp [h]

theorem foldl_digits_natChars (n : Nat) :
    (natChars n).foldl (fun a c => 10 * a + charToDigit c) 0 = n := by
  induction n using natChars.induct with
  | case1 n h =>
    rw [natChars, dif_pos h]
    simpa using (digitCh_facts n h).2.2.2
  | case2 n h ih =>
    rw [natChars, dif_neg h, List.foldl_append, ih]
    simp only [List.foldl_cons, List.foldl_nil]
    rw [(digitCh_facts (n % 10) (Nat.mod_lt n (by omega))).2.2.2]
    omega

theorem parseNat?_natChars (n : Nat) : parseNat? (natChars n) = some n := by
  unfold parseNat?
  rw [if_pos, foldl_digits_natChars]
  refine ⟨natChars_ne_nil n, ?_⟩
  rw [List.all_eq_true]
  intro c hc
  obtain ⟨d, hd, rfl⟩ := natChars_digits n c hc
  simpa using (digitCh_facts d hd).1

theorem splitTab_ne_nil : ∀ (cs : List Char), splitTab cs ≠ []
  | [] => by simp [splitTab]
  | c :: cs => by
    unfold splitTab
    cases hs : splitTab cs with
    | nil => exact absurd hs (splitTab_ne_nil cs)
    | cons q qs => by_cases h : c = '\t' <;> simp [h]

theorem splitTab_no_tab : ∀ (p : List Char), '\t' ∉ p → splitTab p = [p]
  | [], _ => rfl
  | c :: cs, h => by
    have hc : c ≠ '\t' := fun hcc => h (hcc ▸ List.mem_cons_self c cs)
    have ih := splitTab_no_tab cs (fun hm => h (List.mem_cons_of_mem c hm))
    unfold splitTab
    rw [ih]
    simp [hc]

theorem splitTab_cons (c : Char) (cs : List Char) :
    splitTab (c :: cs) =
      match splitTab cs with
      | [] => [[]]
      | p :: ps => if c = '\t' then [] :: p :: ps else (c :: p) :: ps := rfl

theorem splitTab_append_tab : ∀ (p : List Char), '\t' ∉ p → ∀ (rest : List Char),
    splitTab (p ++ '\t' :: rest) = p :: splitTab rest
  | [], _, rest => by
    show splitTab ('\t' :: rest) = [] :: splitTab rest
    rw [splitTab_cons]
    cases hs : splitTab rest with
    | nil => exact absurd hs (splitTab_ne_nil rest)
    | cons q qs => simp
  | c :: cs, h, rest => by
    have hc : c ≠ '\t' := fun hcc => h (hcc ▸ List.mem_cons_self c cs)
    have ih := splitTab_append_tab cs (fun hm => h (List.mem_cons_of_mem c hm)) rest
    show splitTab (c :: (cs ++ '\t' :: rest)) = (c :: cs) :: splitTab rest
    rw [splitTab_cons, ih]
    simp [hc]

theorem splitTab_intercalateTab : ∀ (parts : List (List Char)), parts ≠ [] →
    (∀ p ∈ parts, '\t' ∉ p) → splitTab (intercalateTab parts) = parts
  | [], h, _ => absurd rfl h
  | [p], _, hp => splitTab_no_tab p (hp p (List.mem_singleton_self p))
  | p :: q :: ps, _, hp => by
    have ih := splitTab_intercalateTab (q :: ps) (by simp)
      (fun r hr => hp r (List.mem_cons_of_mem p hr))
    unfold intercalateTab
    rw [splitTab_append_tab p (hp p (List.mem_cons_self p _)), ih]

theorem dropWhile_nl_of_not_mem {cs : List Char} (h : '\n' ∉ cs) :
    cs.dropWhile (fun c => c = '\n') = cs := by
  cases cs with
  | nil => rfl
  | cons c t =>
    have hc : c ≠ '\n' := fun hcc => h (hcc ▸ List.mem_cons_self c t)
    simp [List.dropWhile_cons, hc]

theorem stripNL_of_not_mem {cs : List Char} (h : '\n' ∉ cs) : stripNL cs = cs := by
  unfold stripNL
  rw [dropWhile_nl_of_not_mem h,
    dropWhile_nl_of_not_mem (by simpa using h), List.reverse_reverse]

theorem stripNL_append_nl {cs : List Char} (h : '\n' ∉ cs) :
    stripNL (cs ++ ['\n']) = cs := by
  cases cs with
  | nil => rfl
  | cons c t =>
    have hc : c ≠ '\n' := fun hcc => h (hcc ▸ List.mem_cons_self c t)
    have ht : '\n' ∉ t := fun hm => h (List.mem_cons_of_mem c hm)
    have hrev : '\n' ∉ t.reverse ++ [c] := by
      intro hm
      rcases List.mem_append.mp hm with h1 | h2
      · exact ht (List.mem_reverse.mp h1)
      · simp only [List.mem_singleton] at h2
        exact hc h2.symm
    unfold stripNL
    rw [List.cons_append, List.dropWhile_cons, if_neg (by simp [hc])]
    rw [List.reverse_cons, List.reverse_append]
    simp only [List.reverse_cons, List.reverse_nil, List.nil_append, List.singleton_append]
    rw [List.cons_append, List.dropWhile_cons, if_pos (by simp),
      dropWhile_nl_of_not_mem hrev]
    simp

theorem mem_intercalateTab : ∀ (parts : List (List Char)) (c : Char),
    c ∈ intercalateTab parts → c = '\t' ∨ ∃ p ∈ parts, c ∈ p
  | [], c, h => by simp [intercalateTab] at h
  | [p], c, h => .inr ⟨p, List.mem_singleton_self p, h⟩
  | p :: q :: ps, c, h => by
    unfold intercalateTab at h
    rcases List.mem_append.mp h with h1 | h2
    · exact .inr ⟨p, List.mem_cons_self p _, h1⟩
    · rcases List.mem_cons.mp h2 with rfl | h3
      · exact .inl rfl
      · rcases mem_intercalateTab (q :: ps) c h3 with h4 | ⟨r, hr, hcr⟩
        · exact .inl h4
        · exact .inr ⟨r, List.mem_cons_of_mem p hr, hcr⟩

theorem nl_not_mem_natChars (n : Nat) : '\n' ∉ natChars n := by
  intro hm
  obtain ⟨d, hd, hc⟩ := natChars_digits n _ hm
  exact (digitCh_facts d hd).2.2.1 hc.symm

theorem tab_not_mem_natChars (n : Nat) : '\t' ∉ natChars n := by
  intro hm
  obtain ⟨d, hd, hc⟩ := natChars_digits n _ hm
  exact (digitCh_facts d hd).2.1 hc.symm

theorem getq_set_self {l : List Nat} {i : Nat} (h : i < l.length) (a : Nat) :
    (l.set i a).get? i = some a := by
  rw [List.get?_eq_getElem?]
  exact List.getElem?_set_self h

theorem getq_set_ne {l : List Nat} {i j : Nat} (h : i ≠ j) (a : Nat) :
    (l.set i a).get? j = l.get? j := by
  rw [List.get?_eq_getElem?, List.get?_eq_getElem?]
  exact List.getElem?_set_ne h

theorem length_enumNodes : ∀ (k : Nat) (xs : List PNode),
    (enumNodes k xs).length = xs.length
  | _, [] => rfl
  | k, x :: xs => by simp [enumNodes, length_enumNodes (k + 1) xs]

theorem get?_enumNodes : ∀ (k : Nat) (xs : List PNode) (i : Nat),
    (enumNodes k xs).get? i = (xs.get? i).map (fun x => (k + i, x))
  | _, [], i => by cases i <;> simp [enumNodes]
  | k, x :: xs, 0 => by simp [enumNodes]
  | k, x :: xs, i + 1 => by
    rw [show (enumNodes k (x :: xs)).get? (i + 1) = (enumNodes (k + 1) xs).get? i from rfl,
      List.get?_cons_succ, get?_enumNodes (k + 1) xs i,
      show k + (i + 1) = (k + 1) + i from by omega]

theorem mem_enumNodes {k : Nat} {xs : List PNode} {e : Nat × PNode}
    (h : e ∈ enumNodes k xs) :
    ∃ i, i < xs.length ∧ e.1 = k + i ∧ xs.get? i = some e.2 := by
  obtain ⟨i, hi⟩ := List.mem_iff_get?.mp h
  rw [get?_enumNodes] at hi
  cases hg : xs.get? i with
  | none => rw [hg] at hi; cases hi
  | some v =>
    rw [hg] at hi
    have hev : (k + i, v) = e := Option.some.inj hi
    have hilen : i < xs.length := by
      by_contra hge
      rw [List.get?_eq_none.mpr (by omega)] at hg
      cases hg
    exact ⟨i, hilen, by rw [← hev], by rw [hg, ← hev]⟩

theorem buildRev_ok : ∀ (pairs : List (Nat × PNode)) (arr : List Nat),
    (∀ e ∈ pairs, e.2.lex_id < arr.length) →
    ∃ rev, buildRev arr pairs = .ok rev ∧ rev.length = arr.length ∧
      (∀ q, ((∃ e ∈ pairs, e.2.lex_id = q) →
          ∃ e ∈ pairs, e.2.lex_id = q ∧ rev.get? q = some e.1) ∧
        ((∀ e ∈ pairs, e.2.lex_id ≠ q) → rev.get? q = arr.get? q)) ∧
      (∀ q v, rev.get? q = some v → (∃ e ∈ pairs, e.1 = v) ∨ arr.get? q = some v)
  | [], arr, _ =>
    ⟨arr, rfl, rfl,
      fun _ => ⟨fun ⟨e, he, _⟩ => absurd he (List.not_mem_nil e), fun _ => rfl⟩,
      fun _ _ h => .inr h⟩
  | (i, nd) :: rest, arr, h => by
    have hlt : nd.lex_id < arr.length := h (i, nd) (List.mem_cons_self _ _)
    set arr' := arr.set nd.lex_id i with harr'
    have hlen' : arr'.length = arr.length := List.length_set arr _ _
    obtain ⟨rev, h1, h2, h3, h4⟩ := buildRev_ok rest arr'
      (fun e he => by rw [hlen']; exact h e (List.mem_cons_of_mem _ he))
    refine ⟨rev, ?_, by rw [h2, hlen'], ?_, ?_⟩
    · show buildRev arr ((i, nd) :: rest) = .ok rev
      unfold buildRev
      rw [if_pos hlt]
      exact h1
    · intro q
      constructor
      · rintro ⟨e, he, heq⟩
        rcases List.mem_cons.mp he with rfl | he'
        · by_cases hrest : ∃ e' ∈ rest, e'.2.lex_id = q
          · obtain ⟨e', he', heq', hget⟩ := (h3 q).1 hrest
            exact ⟨e', List.mem_cons_of_mem _ he', heq', hget⟩
          · push_neg at hrest
            refine ⟨(i, nd), List.mem_cons_self _ _, heq, ?_⟩
            rw [(h3 q).2 hrest, harr', ← heq]
            exact getq_set_self hlt i
        · obtain ⟨e', he'', heq', hget⟩ := (h3 q).1 ⟨e, he', heq⟩
          exact ⟨e', List.mem_cons_of_mem _ he'', heq', hget⟩
      · intro hall
        have hne : nd.lex_id ≠ q := hall (i, nd) (List.mem_cons_self _ _)
        have hrest : ∀ e ∈ rest, e.2.lex_id ≠ q :=
          fun e he => hall e (List.mem_cons_of_mem _ he)
        rw [(h3 q).2 hrest, harr', getq_set_ne hne]
    · intro q v hv
      rcases h4 q v hv with h5 | h5
      · obtain ⟨e, he, hev⟩ := h5
        exact .inl ⟨e, List.mem_cons_of_mem _ he, hev⟩
      · by_cases hq : nd.lex_id = q
        · refine .inl ⟨(i, nd), List.mem_cons_self _ _, ?_⟩
          rw [harr', ← hq, getq_set_self hlt i] at h5
          exact Option.some.inj h5
        · rw [harr', getq_set_ne hq] at h5
          exact .inr h5

theorem reindexNodes_ok : ∀ (pairs : List (Nat × PNode)) (rev : List Nat),
    (∀ e ∈ pairs, ∀ p, e.2.parent_id = some p → (rev.get? p).isSome = true) →
    ∃ out, reindexNodes rev pairs = .ok out ∧ out.length = pairs.length ∧
      ∀ m, out.get? m = (pairs.get? m).map (fun e =>
        { e.2 with
          lex_id := e.1,
          parent_id := e.2.parent_id.bind (fun p => rev.get? p),
          children := [] })
  | [], rev, _ => ⟨[], rfl, rfl, fun m => by cases m <;> rfl⟩
  | (i, nd) :: rest, rev, h => by
    obtain ⟨out, h1, h2, h3⟩ := reindexNodes_ok rest rev
      (fun e he => h e (List.mem_cons_of_mem _ he))
    have hpar : mapParent rev nd.parent_id =
        .ok (nd.parent_id.bind (fun p => rev.get? p)) := by
      cases hpp : nd.parent_id with
      | none => rfl
      | some p =>
        have hsome := h (i, nd) (List.mem_cons_self _ _) p hpp
        obtain ⟨np, hnp⟩ := Option.isSome_iff_exists.mp hsome
        show (match rev.get? p with
              | some np => Except.ok (some np)
              | none => Except.error "IndexError: list index out of range") =
            Except.ok ((some p).bind (fun q => rev.get? q))
        rw [Option.some_bind, hnp]
    refine ⟨{ nd with
        lex_id := i,
        parent_id := nd.parent_id.bind (fun p => rev.get? p),
        children := [] } :: out,
      ?_, by simp [h2, length_enumNodes], ?_⟩
    · show reindexNodes rev ((i, nd) :: rest) = _
      unfold reindexNodes
      rw [hpar, h1]
    · intro m
      cases m with
      | zero => simp [enumNodes]
      | succ m =>
        show out.get? m = _
        rw [h3 m]
        rfl

theorem mem_storeEdges {data : List PNode} {j p : Nat} {pn : PNode}
    (hj : j < data.length) (hp : parentIdAt data j = some p)
    (hg : data.get? p = some pn) :
    (lemmaAt data j, pn.lemma') ∈ storeEdges data := by
  unfold storeEdges
  refine List.mem_filterMap.mpr ⟨j, List.mem_range.mpr hj, ?_⟩
  rw [hp]
  show (match data.get? p with
        | some pn => some (lemmaAt data j, pn.lemma')
        | none => none) = some (lemmaAt data j, pn.lemma')
  rw [hg]

theorem storeEdges_mem {data : List PNode} {e : List Char × List Char}
    (h : e ∈ storeEdges data) :
    ∃ j p pn, j < data.length ∧ parentIdAt data j = some p ∧
      data.get? p = some pn ∧ e = (lemmaAt data j, pn.lemma') := by
  unfold storeEdges at h
  obtain ⟨j, hj, hfe⟩ := List.mem_filterMap.mp h
  refine ⟨j, ?_⟩
  split at hfe
  case h_2 => cases hfe
  case h_1 p hp =>
    split at hfe
    case h_2 => cases hfe
    case h_1 pn hpn =>
      exact ⟨p, pn, List.mem_range.mp hj, hp, hpn, (Option.some.inj hfe).symm⟩

theorem parentIdAt_congr_map {res base : List PNode} {F : Nat → PNode → PNode}
    (hmap : ∀ q, res.get? q = (base.get? q).map (F q))
    (hF : ∀ q nd, (F q nd).parent_id = nd.parent_id) (q : Nat) :
    parentIdAt res q = parentIdAt base q := by
  cases hg : base.get? q with
  | none =>
    rw [parentIdAt_none (show res.get? q = none by rw [hmap q, hg]; rfl),
      parentIdAt_none hg]
  | some nd =>
    rw [parentIdAt_eq (show res.get? q = some (F q nd) by rw [hmap q, hg]; rfl),
      parentIdAt_eq hg, hF]

theorem lemmaAt_none {data : List PNode} {j : Nat}
    (hg : data.get? j = none) : lemmaAt data j = [] := by
  unfold lemmaAt; rw [hg]

theorem lemmaAt_congr_map {res base : List PNode} {F : Nat → PNode → PNode}
    (hmap : ∀ q, res.get? q = (base.get? q).map (F q))
    (hF : ∀ q nd, (F q nd).lemma' = nd.lemma') (q : Nat) :
    lemmaAt res q = lemmaAt base q := by
  cases hg : base.get? q with
  | none =>
    rw [lemmaAt_none (show res.get? q = none by rw [hmap q, hg]; rfl),
      lemmaAt_none hg]
  | some nd =>
    rw [lemmaAt_eq (show res.get? q = some (F q nd) by rw [hmap q, hg]; rfl),
      lemmaAt_eq hg, hF]

theorem insertNode_perm (x : PNode) (l : List PNode) :
    (insertNode x l).Perm (x :: l) := by
  induction l with
  | nil => exact List.Perm.refl _
  | cons y ys ih =>
    unfold insertNode
    by_cases h : keyLt y x = true
    · rw [if_pos h]
      exact (ih.cons y).trans (List.Perm.swap x y ys)
    · rw [if_neg h]

theorem sortNodes_perm : ∀ (l : List PNode), (sortNodes l).Perm l
  | [] => List.Perm.refl _
  | x :: xs =>
    (insertNode_perm x (sortNodes xs)).trans ((sortNodes_perm xs).cons x)

theorem mem_storeEdges_of_lt {data : List PNode} {j p : Nat}
    (hj : j < data.length) (hp : parentIdAt data j = some p)
    (hplt : p < data.length) :
    (lemmaAt data j, lemmaAt data p) ∈ storeEdges data := by
  have hg : data.get? p = some (data.get ⟨p, hplt⟩) := List.get?_eq_get hplt
  have hmm := mem_storeEdges hj hp hg
  rwa [← lemmaAt_eq hg] at hmm

/-! ## Claims -/

/-- C2: the claim says that after `lex_sort` the Lemma Index is rebuilt so
that looking up a node's `(lemma, morph)` pair returns its new id.  The code
never touches `_index` in `lex_sort`: on the two-record store (lemma b with
id 0, lemma a with id 1), sorting gives lemma a the new id 0, yet
`get_id_by_lemma` still answers the pre-sort id 1, which now addresses a
different node. -/
theorem c2_index_stale_after_sort :
    (lexSortState (loadModel ["0\tb\tx\tN\t".data, "1\ta\ty\tN\t".data]
        emptyDeriNet "derinet.tsv".data).1).toOption.map (fun st =>
      (lemmaAt st._data 0, lexIdAt st._data 0,
        get_id_by_lemma st._index "a".data none)) =
      some ("a".data, 0, some 1) := rfl

/-- C5: loading the three-record do/doer/doing scenario succeeds and node 0
gets children `[1, 2]`, but `get_subtree_by_id` on node 0 raises
AttributeError — the code reads `child.id` while the namedtuple field is
`lex_id` — instead of returning the node with its two child subtrees. -/
theorem c5_subtree_attribute_error :
    (loadModel ["0\tdo\tbase\tV\t".data, "1\tdoer\tagent\tN\t0".data,
        "2\tdoing\tgerund\tN\t0".data] emptyDeriNet "derinet.tsv".data).2 =
      .ok () ∧
    childrenAt (loadModel ["0\tdo\tbase\tV\t".data, "1\tdoer\tagent\tN\t0".data,
        "2\tdoing\tgerund\tN\t0".data] emptyDeriNet "derinet.tsv".data).1._data 0 =
      [1, 2] ∧
    get_subtree_by_id (loadModel ["0\tdo\tbase\tV\t".data,
        "1\tdoer\tagent\tN\t0".data, "2\tdoing\tgerund\tN\t0".data]
        emptyDeriNet "derinet.tsv".data).1._data 0 =
      .error "AttributeError: Node object has no attribute id" :=
  ⟨rfl, rfl, rfl⟩

/-- C6 counterexample: loading the single record `0\tfoo\tx\tN\t5` (parent 5
does not exist) fails with IndexError, but the Store is NOT left unchanged:
the parsed node is already in `_data`, so a partial Store is observable. -/
theorem c6_partial_store_observable :
    (loadModel ["0\tfoo\tx\tN\t5".data] emptyDeriNet "derinet.tsv".data).2 =
      .error "IndexError: list index out of range" ∧
    (loadModel ["0\tfoo\tx\tN\t5".data] emptyDeriNet "derinet.tsv".data).1._data.length
      = 1 ∧
    (loadModel ["0\tfoo\tx\tN\t5".data] emptyDeriNet "derinet.tsv".data).1 ≠
      emptyDeriNet :=
  ⟨rfl, rfl, by decide⟩

/-- C6 (amended): for every input containing a record whose parent reference
lies outside the range of existing ids, `load` fails with an uncaught
exception — but the partially built Store remains observable: `_data` and
`_index` already hold the parsed nodes and index when the exception is
raised, so the Store state is changed by the failed load. -/
theorem c6_dangling_load_fails_partial_store {lines : List (List Char)}
    {data : List PNode} {idx : Idx} (fname : List Char)
    (hread : readNodes lines ([], []) = .ok (data, idx))
    (hdang : danglingB data = true) :
    ∃ st e, loadModel lines emptyDeriNet fname = (st, .error e) ∧
      st._index = idx ∧ st._data.length = data.length ∧ data ≠ [] :=
  loadModel_dangling hread hdang fname

/-- Witness for C6 (amended) at the concrete input `0\tfoo\tx\tN\t5`. -/
theorem c6_dangling_witness :
    readNodes ["0\tfoo\tx\tN\t5".data] ([], []) =
      .ok ([⟨0, "foo".data, "x".data, "N".data, some 5, []⟩],
        [("foo".data, [("x".data, 0)])]) ∧
    danglingB [⟨0, "foo".data, "x".data, "N".data, some 5, []⟩] = true ∧
    ∃ st e, loadModel ["0\tfoo\tx\tN\t5".data] emptyDeriNet "derinet.tsv".data =
        (st, .error e) ∧
      st._index = [("foo".data, [("x".data, 0)])] ∧
      st._data.length =
        ([⟨0, "foo".data, "x".data, "N".data, some 5, []⟩] : List PNode).length ∧
      ([⟨0, "foo".data, "x".data, "N".data, some 5, []⟩] : List PNode) ≠ [] :=
  ⟨rfl, rfl,
    c6_dangling_load_fails_partial_store "derinet.tsv".data rfl rfl⟩

/-- C7: the claim says the merge/update-from-file operation always fails with
NotImplemented.  In the code the body of `update_from_file` is `pass`: for
every invocation it returns successfully (`None`) and leaves the state
untouched — it never fails, a silent no-op. -/
theorem c7_update_from_file_silent_no_op (st : DeriNet) (fname : List Char) :
    update_from_file st fname = (st, .ok ()) := rfl

/-- C8: on the two-record input whose last stated id is 5 (ids 0 and 5 are
not contiguous), `load` does not succeed with a non-fatal warning: the
warning branch formats the undefined name `i`, so the load aborts with a
NameError exception. -/
theorem c8_noncontiguous_load_raises :
    (loadModel ["0\ta\tx\tN\t".data, "5\tb\ty\tN\t".data] emptyDeriNet
      "derinet.tsv".data).2 = .error "NameError: name i is not defined" := rfl

/-- C4 counterexample: with lemma "can" stored under pattern "noun" (id 3)
and "verb" (id 7), the ambiguous lookup and the not-found lookup return the
SAME value (Python `None`): the two outcomes are not distinguishable,
contrary to the claim; the disambiguated lookup does return 7. -/
theorem c4_ambiguous_equals_notfound :
    get_id_by_lemma [("can".data, [("noun".data, 3), ("verb".data, 7)])]
        "can".data none =
      get_id_by_lemma [("can".data, [("noun".data, 3), ("verb".data, 7)])]
        "xyz".data none ∧
    get_id_by_lemma [("can".data, [("noun".data, 3), ("verb".data, 7)])]
        "can".data none = none ∧
    get_id_by_lemma [("can".data, [("noun".data, 3), ("verb".data, 7)])]
        "can".data (some "verb".data) = some 7 :=
  ⟨rfl, rfl, rfl⟩

/-- C4 (amended): lookup resolves three ways, but the absent and the
ambiguous outcomes are NOT distinguishable — both are Python `None`:
if the lemma is absent the result is `none`; if exactly one id is stored
under the lemma that id is returned regardless of the pattern argument; if
several ids exist and the given pattern matches, that id is returned; if
several ids exist and the pattern is absent or unmatched the result is
`none`, the same value as for an absent lemma. -/
theorem c4_lookup_three_way_resolution (index : Idx) (lm : List Char)
    (morph : Option (List Char)) :
    (lookupIdx index lm = none → get_id_by_lemma index lm morph = none) ∧
    (∀ m v, lookupIdx index lm = some [(m, v)] →
      get_id_by_lemma index lm morph = some v) ∧
    (∀ li m v, lookupIdx index lm = some li → 2 ≤ li.length → morph = some m →
      lookupMorph li m = some v → get_id_by_lemma index lm morph = some v) ∧
    (∀ li, lookupIdx index lm = some li → 2 ≤ li.length →
      (∀ m, morph = some m → lookupMorph li m = none) →
      get_id_by_lemma index lm morph = none) := by
  refine ⟨?_, ?_, ?_, ?_⟩
  · intro h
    unfold get_id_by_lemma
    rw [h]
  · intro m v h
    unfold get_id_by_lemma
    rw [h]
    rfl
  · intro li m v hli hlen hm hlk
    subst hm
    unfold get_id_by_lemma
    rw [hli]
    show (if li.length = 1 then (li.map Prod.snd).head?
          else
            match lookupMorph li m with
            | some vv => some vv
            | none => none) = some v
    rw [if_neg (by omega), hlk]
  · intro li hli hlen hno
    unfold get_id_by_lemma
    rw [hli]
    cases morph with
    | none =>
      show (if li.length = 1 then (li.map Prod.snd).head? else none) = none
      rw [if_neg (by omega)]
    | some m =>
      show (if li.length = 1 then (li.map Prod.snd).head?
            else
              match lookupMorph li m with
              | some vv => some vv
              | none => none) = none
      rw [if_neg (by omega), hno m rfl]

/-- Witness for C4 (amended): the disambiguated lookup on the concrete
"can" index returns id 7. -/
theorem c4_lookup_three_way_witness :
    get_id_by_lemma [("can".data, [("noun".data, 3), ("verb".data, 7)])]
      "can".data (some "verb".data) = some 7 :=
  (c4_lookup_three_way_resolution
      [("can".data, [("noun".data, 3), ("verb".data, 7)])]
      "can".data (some "verb".data)).2.2.1
    [("noun".data, 3), ("verb".data, 7)] "verb".data 7 rfl (by decide) rfl rfl

/-- C9: encoding a Lexeme's first five fields to a tab-separated line
(`save`) and decoding that line (`_read_nodes_from_file`) reproduces the
same five field values, for every node whose text fields contain no tab and
no newline; the derived `children` field is not serialized, and an absent
parent round-trips through the empty field. -/
theorem c9_codec_round_trip (nd : PNode)
    (h1 : '\t' ∉ nd.lemma') (h2 : '\n' ∉ nd.lemma')
    (h3 : '\t' ∉ nd.morph) (h4 : '\n' ∉ nd.morph)
    (h5 : '\t' ∉ nd.pos) (h6 : '\n' ∉ nd.pos) :
    decodeLine (encodeNode nd ++ ['\n']) =
      .ok (nd.lex_id, nd.lemma', nd.morph, nd.pos, nd.parent_id) := by
  have hparts : ∀ (pf : List Char), '\t' ∉ pf →
      ∀ p ∈ [natChars nd.lex_id, nd.lemma', nd.morph, nd.pos, pf], '\t' ∉ p := by
    intro pf hpf p hp
    simp only [List.mem_cons, List.not_mem_nil, or_false] at hp
    rcases hp with rfl | rfl | rfl | rfl | rfl
    · exact tab_not_mem_natChars _
    · exact h1
    · exact h3
    · exact h5
    · exact hpf
  have hnl : ∀ (pf : List Char), '\n' ∉ pf →
      '\n' ∉ intercalateTab [natChars nd.lex_id, nd.lemma', nd.morph, nd.pos, pf] := by
    intro pf hpf hm
    rcases mem_intercalateTab _ _ hm with hq | ⟨r, hr, hcr⟩
    · exact absurd hq (by decide)
    · simp only [List.mem_cons, List.not_mem_nil, or_false] at hr
      rcases hr with rfl | rfl | rfl | rfl | rfl
      · exact nl_not_mem_natChars _ hcr
      · exact h2 hcr
      · exact h4 hcr
      · exact h6 hcr
      · exact hpf hcr
  unfold decodeLine encodeNode
  cases hp : nd.parent_id with
  | none =>
    rw [stripNL_append_nl (hnl [] (by simp)),
      splitTab_intercalateTab _ (by simp) (hparts [] (by simp))]
    show (match parseNat? (natChars nd.lex_id) with
          | none => Except.error "ValueError: invalid literal for int"
          | some i =>
              if ([] : List Char) = [] then
                Except.ok (i, nd.lemma', nd.morph, nd.pos, (none : Option Nat))
              else
                match parseNat? ([] : List Char) with
                | none => Except.error "ValueError: invalid literal for int"
                | some q => Except.ok (i, nd.lemma', nd.morph, nd.pos, some q)) =
        Except.ok (nd.lex_id, nd.lemma', nd.morph, nd.pos, none)
    rw [parseNat?_natChars]
    rfl
  | some p =>
    rw [stripNL_append_nl (hnl (natChars p) (nl_not_mem_natChars p)),
      splitTab_intercalateTab _ (by simp)
        (hparts (natChars p) (tab_not_mem_natChars p))]
    show (match parseNat? (natChars nd.lex_id) with
          | none => Except.error "ValueError: invalid literal for int"
          | some i =>
              if natChars p = [] then
                Except.ok (i, nd.lemma', nd.morph, nd.pos, (none : Option Nat))
              else
                match parseNat? (natChars p) with
                | none => Except.error "ValueError: invalid literal for int"
                | some q => Except.ok (i, nd.lemma', nd.morph, nd.pos, some q)) =
        Except.ok (nd.lex_id, nd.lemma', nd.morph, nd.pos, some p)
    rw [parseNat?_natChars]
    show (if natChars p = [] then
            Except.ok (nd.lex_id, nd.lemma', nd.morph, nd.pos, (none : Option Nat))
          else
            match parseNat? (natChars p) with
            | none => Except.error "ValueError: invalid literal for int"
            | some q => Except.ok (nd.lex_id, nd.lemma', nd.morph, nd.pos, some q)) =
        Except.ok (nd.lex_id, nd.lemma', nd.morph, nd.pos, some p)
    rw [if_neg (natChars_ne_nil p), parseNat?_natChars]

/-- Witness for C9 at a concrete parentless node. -/
theorem c9_codec_round_trip_witness :
    ('\t' ∉ "doer".data ∧ '\n' ∉ "doer".data ∧ '\t' ∉ "agent".data ∧
      '\n' ∉ "agent".data ∧ '\t' ∉ "N".data ∧ '\n' ∉ "N".data) ∧
    decodeLine
        (encodeNode ⟨7, "doer".data, "agent".data, "N".data, none, []⟩ ++ ['\n']) =
      .ok (7, "doer".data, "agent".data, "N".data, none) :=
  ⟨⟨by decide, by decide, by decide, by decide, by decide, by decide⟩,
    c9_codec_round_trip ⟨7, "doer".data, "agent".data, "N".data, none, []⟩
      (by decide) (by decide) (by decide) (by decide) (by decide) (by decide)⟩

/-- C3: for every valid input (parse succeeds, stated ids equal positions,
parent references in range), `load` succeeds and afterwards every node's
`children` list is exactly the list of (positions of) the nodes whose
`parent_id` equals that node's id — the children relation is the exact
inverse of the parent relation. -/
theorem c3_children_inverse_after_load {lines : List (List Char)}
    {data : List PNode} {idx : Idx} (fname : List Char)
    (hread : readNodes lines ([], []) = .ok (data, idx))
    (hids : idsCanonical data = true)
    (hpar : parentsInRange data = true)
    (hne : data ≠ []) :
    ∃ st, loadModel lines emptyDeriNet fname = (st, .ok ()) ∧
      st._data.length = data.length ∧
      ∀ q, q < st._data.length →
        childrenAt st._data q =
          (List.range st._data.length).filter
            (fun j => parentIdAt st._data j == some (lexIdAt st._data q)) := by
  have hlen0 : 0 < data.length := List.length_pos.mpr hne
  have hlt1 : data.length - 1 < data.length := by omega
  have hg1 : data.get? (data.length - 1) = some (data.get ⟨data.length - 1, hlt1⟩) :=
    List.get?_eq_get hlt1
  have hlast : (data.getLast?).map PNode.lex_id = some (data.length - 1) := by
    rw [List.getLast?_eq_getElem?, ← List.get?_eq_getElem?, hg1]
    have h2 := idsCanonical_spec hids (data.length - 1) hlt1
    rw [lexIdAt_eq hg1] at h2
    exact congrArg some h2
  obtain ⟨res, hload, hreslen, hreschar⟩ := loadModel_ok hread hlast hpar fname
  obtain ⟨ns, hns1, -, hns3, -⟩ := readNodes_ok lines [] [] hread
  have hdata : data = ns := by simpa using hns1
  refine ⟨⟨res, idx, some fname⟩, hload, hreslen, ?_⟩
  intro q hq
  have hq' : q < data.length := by rw [← hreslen]; exact hq
  have hgq : data.get? q = some (data.get ⟨q, hq'⟩) := List.get?_eq_get hq'
  have hresq : res.get? q = some { data.get ⟨q, hq'⟩ with
      children := (data.get ⟨q, hq'⟩).children ++
        (List.range data.length).filter (fun j => parentIdAt data j == some q) } := by
    rw [hreschar q, hgq]
    rfl
  have hch : (data.get ⟨q, hq'⟩).children = [] :=
    hns3 _ (hdata ▸ List.get?_mem hgq)
  have hlex : lexIdAt res q = q := by
    rw [lexIdAt_eq hresq]
    show (data.get ⟨q, hq'⟩).lex_id = q
    have h3 := idsCanonical_spec hids q hq'
    rw [lexIdAt_eq hgq] at h3
    exact h3
  have hptrans : ∀ j, parentIdAt res j = parentIdAt data j :=
    parentIdAt_congr_map hreschar (fun q nd => rfl)
  show childrenAt res q =
    (List.range res.length).filter (fun j => parentIdAt res j == some (lexIdAt res q))
  rw [childrenAt_eq hresq]
  show (data.get ⟨q, hq'⟩).children ++
      (List.range data.length).filter (fun j => parentIdAt data j == some q) =
    (List.range res.length).filter (fun j => parentIdAt res j == some (lexIdAt res q))
  rw [hch, List.nil_append, hreslen, hlex]
  exact (List.filter_congr (fun j _ => by rw [hptrans j])).symm

/-- Witness for C3 at the three-record do/doer/doing input. -/
theorem c3_children_inverse_witness :
    readNodes ["0\tdo\tbase\tV\t".data, "1\tdoer\tagent\tN\t0".data,
        "2\tdoing\tgerund\tN\t0".data] ([], []) =
      .ok ([⟨0, "do".data, "base".data, "V".data, none, []⟩,
            ⟨1, "doer".data, "agent".data, "N".data, some 0, []⟩,
            ⟨2, "doing".data, "gerund".data, "N".data, some 0, []⟩],
        [("do".data, [("base".data, 0)]), ("doer".data, [("agent".data, 1)]),
          ("doing".data, [("gerund".data, 2)])]) ∧
    idsCanonical [⟨0, "do".data, "base".data, "V".data, none, []⟩,
      ⟨1, "doer".data, "agent".data, "N".data, some 0, []⟩,
      ⟨2, "doing".data, "gerund".data, "N".data, some 0, []⟩] = true ∧
    parentsInRange [⟨0, "do".data, "base".data, "V".data, none, []⟩,
      ⟨1, "doer".data, "agent".data, "N".data, some 0, []⟩,
      ⟨2, "doing".data, "gerund".data, "N".data, some 0, []⟩] = true ∧
    ∃ st, loadModel ["0\tdo\tbase\tV\t".data, "1\tdoer\tagent\tN\t0".data,
          "2\tdoing\tgerund\tN\t0".data] emptyDeriNet "derinet.tsv".data =
        (st, .ok ()) ∧
      st._data.length =
        ([⟨0, "do".data, "base".data, "V".data, none, []⟩,
          ⟨1, "doer".data, "agent".data, "N".data, some 0, []⟩,
          ⟨2, "doing".data, "gerund".data, "N".data, some 0, []⟩] : List PNode).length ∧
      ∀ q, q < st._data.length →
        childrenAt st._data q =
          (List.range st._data.length).filter
            (fun j => parentIdAt st._data j == some (lexIdAt st._data q)) :=
  ⟨rfl, by decide, by decide,
    c3_children_inverse_after_load "derinet.tsv".data rfl (by decide) (by decide)
      (by decide)⟩

/-- C10: for every otherwise well-formed input in which records share a
`(lemma, morph)` pair, `load` succeeds with no exception and no warning;
every record's node stays in the Store (same length, same id/lemma/morph
per position), and the Lemma Index maps the shared pair to the stated id of
the LAST record carrying it — earlier ids under the same pair are silently
overwritten. -/
theorem c10_duplicate_pair_last_wins {lines : List (List Char)}
    {data : List PNode} {idx : Idx} (fname L M : List Char)
    (hread : readNodes lines ([], []) = .ok (data, idx))
    (hlast : (data.getLast?).map PNode.lex_id = some (data.length - 1))
    (hpar : parentsInRange data = true)
    (hdup : 2 ≤ (data.filter (fun nd => nd.lemma' == L && nd.morph == M)).length) :
    ∃ st, loadModel lines emptyDeriNet fname = (st, .ok ()) ∧
      st._data.length = data.length ∧
      (∀ q, (st._data.get? q).map (fun nd => (nd.lex_id, nd.lemma', nd.morph)) =
        (data.get? q).map (fun nd => (nd.lex_id, nd.lemma', nd.morph))) ∧
      ∃ ndLast,
        (data.filter (fun nd => nd.lemma' == L && nd.morph == M)).getLast? =
          some ndLast ∧
        lookup2 st._index L M = some ndLast.lex_id := by
  obtain ⟨res, hload, hreslen, hreschar⟩ := loadModel_ok hread hlast hpar fname
  obtain ⟨ns, hns1, -, -, hns4⟩ := readNodes_ok lines [] [] hread
  have hdata : data = ns := by simpa using hns1
  refine ⟨⟨res, idx, some fname⟩, hload, hreslen, ?_, ?_⟩
  · intro q
    show (res.get? q).map _ = _
    rw [hreschar q]
    cases data.get? q <;> rfl
  · have hidx : idx = data.foldl (fun a nd => setIdx a nd.lemma' nd.morph nd.lex_id) [] := by
      rw [hns4, ← hdata]
    have hfil_ne : (data.filter (fun nd => nd.lemma' == L && nd.morph == M)) ≠ [] := by
      intro hc
      rw [hc] at hdup
      simp at hdup
    obtain ⟨ndLast, hndLast⟩ :=
      Option.isSome_iff_exists.mp (List.getLast?_isSome.mpr hfil_ne)
    refine ⟨ndLast, hndLast, ?_⟩
    show lookup2 idx L M = some ndLast.lex_id
    have hl := lookup2_foldl L M data []
    rw [← hidx, hndLast] at hl
    exact hl

/-- Witness for C10: two records both carrying the pair (a, x), with stated
ids 0 and 1; the index maps (a, x) to 1. -/
theorem c10_duplicate_pair_witness :
    readNodes ["0\ta\tx\tN\t".data, "1\ta\tx\tN\t".data] ([], []) =
      .ok ([⟨0, "a".data, "x".data, "N".data, none, []⟩,
            ⟨1, "a".data, "x".data, "N".data, none, []⟩],
        [("a".data, [("x".data, 1)])]) ∧
    2 ≤ (([⟨0, "a".data, "x".data, "N".data, none, []⟩,
          ⟨1, "a".data, "x".data, "N".data, none, []⟩] : List PNode).filter
        (fun nd => nd.lemma' == "a".data && nd.morph == "x".data)).length ∧
    ∃ st, loadModel ["0\ta\tx\tN\t".data, "1\ta\tx\tN\t".data] emptyDeriNet
        "derinet.tsv".data = (st, .ok ()) ∧
      st._data.length =
        ([⟨0, "a".data, "x".data, "N".data, none, []⟩,
          ⟨1, "a".data, "x".data, "N".data, none, []⟩] : List PNode).length ∧
      (∀ q, (st._data.get? q).map (fun nd => (nd.lex_id, nd.lemma', nd.morph)) =
        (([⟨0, "a".data, "x".data, "N".data, none, []⟩,
          ⟨1, "a".data, "x".data, "N".data, none, []⟩] : List PNode).get? q).map
          (fun nd => (nd.lex_id, nd.lemma', nd.morph))) ∧
      ∃ ndLast,
        (([⟨0, "a".data, "x".data, "N".data, none, []⟩,
          ⟨1, "a".data, "x".data, "N".data, none, []⟩] : List PNode).filter
            (fun nd => nd.lemma' == "a".data && nd.morph == "x".data)).getLast? =
          some ndLast ∧
        lookup2 st._index "a".data "x".data = some ndLast.lex_id :=
  ⟨rfl, by decide,
    c10_duplicate_pair_last_wins "derinet.tsv".data "a".data "x".data rfl rfl
      (by decide) (by decide)⟩

/-- C1: for every validly loaded Store (ids equal to positions, parent
references in range), `lex_sort` — the canonical sort, reindexing and
re-derivation of children — succeeds, and every original parent/child edge
survives as the same (child lemma, parent lemma) pair in the sorted Store:
the edge set is invariant under the relabeling, only the numeric ids
change. -/
theorem c1_lex_sort_preserves_edges (data : List PNode)
    (hids : idsCanonical data = true)
    (hpar : parentsInRange data = true) :
    ∃ d, lexSortData data = .ok d ∧
      ∀ e ∈ storeEdges data, e ∈ storeEdges d := by
  have hperm : (sortNodes data).Perm data := sortNodes_perm data
  have hslen : (sortNodes data).length = data.length := hperm.length_eq
  -- every node of the store sits at the position its lex_id names
  have hA : ∀ nd ∈ data, nd.lex_id < data.length ∧ data.get? nd.lex_id = some nd := by
    intro nd hmem
    obtain ⟨⟨m, hm⟩, hg⟩ := List.mem_iff_get.mp hmem
    have hg' : data.get? m = some nd := by rw [List.get?_eq_get hm, hg]
    have hid : nd.lex_id = m := by
      have h0 := idsCanonical_spec hids m hm
      rw [lexIdAt_eq hg'] at h0
      exact h0
    rw [hid]
    exact ⟨hm, hg'⟩
  -- the first reindex loop succeeds
  have hC : ∀ e ∈ enumNodes 0 (sortNodes data),
      e.2.lex_id < (List.replicate data.length 0).length := by
    intro e he
    rw [List.length_replicate]
    obtain ⟨i, hi, -, hget⟩ := mem_enumNodes he
    exact (hA e.2 (hperm.mem_iff.mp (List.get?_mem hget))).1
  obtain ⟨rev, hrev, hrevlen, hrev3, hrev4⟩ :=
    buildRev_ok (enumNodes 0 (sortNodes data)) (List.replicate data.length 0) hC
  rw [List.length_replicate] at hrevlen
  -- every position of the original store is hit by some sorted node
  have hql : ∀ q, q < data.length →
      ∃ e ∈ enumNodes 0 (sortNodes data), e.2.lex_id = q := by
    intro q hq
    have hgq : data.get? q = some (data.get ⟨q, hq⟩) := List.get?_eq_get hq
    have hmemq : data.get ⟨q, hq⟩ ∈ sortNodes data :=
      hperm.mem_iff.mpr (List.get?_mem hgq)
    obtain ⟨⟨i, hi⟩, hgi⟩ := List.mem_iff_get.mp hmemq
    refine ⟨(i, (sortNodes data).get ⟨i, hi⟩), ?_, ?_⟩
    · apply List.mem_iff_get?.mpr
      refine ⟨i, ?_⟩
      rw [get?_enumNodes, List.get?_eq_get hi]
      simp
    · rw [hgi]
      have h0 := idsCanonical_spec hids q hq
      rw [lexIdAt_eq hgq] at h0
      exact h0
  -- the reverse index sends q to a sorted position holding the node data.get q
  have hrevq : ∀ q, q < data.length →
      ∃ r, rev.get? q = some r ∧ r < data.length ∧
        (sortNodes data).get? r = data.get? q := by
    intro q hq
    obtain ⟨e, he, heq, hget⟩ := (hrev3 q).1 (hql q hq)
    obtain ⟨i, hi, he1, hei⟩ := mem_enumNodes he
    have hzi : e.1 = i := by omega
    have hmem2 : e.2 ∈ data := hperm.mem_iff.mp (List.get?_mem hei)
    have hdq : data.get? q = some e.2 := by
      rw [← heq]
      exact (hA e.2 hmem2).2
    rw [hslen] at hi
    exact ⟨e.1, hget, by omega, by rw [hzi, hei, hdq]⟩
  -- every value stored in the reverse index is an in-range sorted position
  have hrevval : ∀ q r, rev.get? q = some r → r < data.length := by
    intro q r hqr
    rcases hrev4 q r hqr with ⟨e, he, he1⟩ | harr
    · obtain ⟨i, hi, hei1, -⟩ := mem_enumNodes he
      rw [hslen] at hi
      omega
    · have hq : q < data.length := by
        by_contra hge
        rw [List.get?_eq_none.mpr (by rw [List.length_replicate]; omega)] at harr
        cases harr
      have hr0 : r = 0 := List.eq_of_mem_replicate (List.get?_mem harr)
      omega
  -- the second reindex loop succeeds
  have hE : ∀ e ∈ enumNodes 0 (sortNodes data), ∀ p,
      e.2.parent_id = some p → (rev.get? p).isSome = true := by
    intro e he p hp
    obtain ⟨i, hi, -, hget⟩ := mem_enumNodes he
    have hmem2 : e.2 ∈ data := hperm.mem_iff.mp (List.get?_mem hget)
    obtain ⟨hlid, hgm⟩ := hA e.2 hmem2
    have hpm : parentIdAt data e.2.lex_id = some p := by
      rw [parentIdAt_eq hgm, hp]
    obtain ⟨r, hr, -, -⟩ := hrevq p (parentsInRange_spec hpar _ p hpm)
    rw [hr]
    rfl
  obtain ⟨out, hout, houtlen, houtchar⟩ :=
    reindexNodes_ok (enumNodes 0 (sortNodes data)) rev hE
  have houtlen' : out.length = data.length := by
    rw [houtlen, length_enumNodes, hslen]
  -- populating children over the reindexed nodes succeeds
  have hG : ∀ j r, parentIdAt out j = some r → r < out.length := by
    intro j r hjr
    rw [houtlen']
    cases hg : out.get? j with
    | none => rw [parentIdAt_none hg] at hjr; cases hjr
    | some ndj =>
      rw [parentIdAt_eq hg] at hjr
      have hcj := houtchar j
      rw [hg] at hcj
      cases hpj : (enumNodes 0 (sortNodes data)).get? j with
      | none => rw [hpj] at hcj; cases hcj
      | some ep =>
        rw [hpj] at hcj
        have hnd : ndj = { ep.2 with
            lex_id := ep.1,
            parent_id := ep.2.parent_id.bind (fun p => rev.get? p),
            children := [] } := Option.some.inj hcj
        have hjr' : ep.2.parent_id.bind (fun p => rev.get? p) = some r := by
          rw [hnd] at hjr
          exact hjr
        cases hpp : ep.2.parent_id with
        | none => rw [hpp] at hjr'; cases hjr'
        | some p =>
          rw [hpp, Option.some_bind] at hjr'
          exact hrevval p r hjr'
  obtain ⟨d, hpop, hdlen, hdchar⟩ := populateChildren_ok hG
  refine ⟨d, ?_, ?_⟩
  · show lexSortData data = .ok d
    unfold lexSortData
    simp only [hrev, hout, hpop]
  · intro e he
    obtain ⟨j, p, pn, hj, hpj, hgp, rfl⟩ := storeEdges_mem he
    have hgj : data.get? j = some (data.get ⟨j, hj⟩) := List.get?_eq_get hj
    have hcj_mem : data.get ⟨j, hj⟩ ∈ sortNodes data :=
      hperm.mem_iff.mpr (List.get?_mem hgj)
    obtain ⟨⟨i, hi⟩, hgi⟩ := List.mem_iff_get.mp hcj_mem
    have hpn : p < data.length := parentsInRange_spec hpar j p hpj
    obtain ⟨r, hrq, hrn, hsr⟩ := hrevq p hpn
    have houtI : out.get? i = some { data.get ⟨j, hj⟩ with
        lex_id := 0 + i,
        parent_id := (data.get ⟨j, hj⟩).parent_id.bind (fun q => rev.get? q),
        children := [] } := by
      rw [houtchar i, get?_enumNodes, List.get?_eq_get hi, hgi]
      rfl
    have houtR : out.get? r = some { pn with
        lex_id := 0 + r,
        parent_id := pn.parent_id.bind (fun q => rev.get? q),
        children := [] } := by
      rw [houtchar r, get?_enumNodes, hsr, hgp]
      rfl
    have hpj' : (data.get ⟨j, hj⟩).parent_id = some p := by
      rw [← parentIdAt_eq hgj]
      exact hpj
    have h1 : parentIdAt out i = some r := by
      rw [parentIdAt_eq houtI]
      show (data.get ⟨j, hj⟩).parent_id.bind (fun q => rev.get? q) = some r
      rw [hpj', Option.some_bind, hrq]
    have hpopP : ∀ q, parentIdAt d q = parentIdAt out q :=
      parentIdAt_congr_map hdchar (fun q nd => rfl)
    have hpopL : ∀ q, lemmaAt d q = lemmaAt out q :=
      lemmaAt_congr_map hdchar (fun q nd => rfl)
    have hIn : i < d.length := by
      rw [hdlen, houtlen']
      rw [hslen] at hi
      exact hi
    have hRn : r < d.length := by
      rw [hdlen, houtlen']
      exact hrn
    have h1d : parentIdAt d i = some r := by rw [hpopP i, h1]
    have e1 : lemmaAt d i = lemmaAt data j := by
      rw [hpopL i, lemmaAt_eq houtI, lemmaAt_eq hgj]
    have e2 : lemmaAt d r = pn.lemma' := by
      rw [hpopL r, lemmaAt_eq houtR]
    rw [← e1, ← e2]
    exact mem_storeEdges_of_lt hIn h1d hRn

/-- Witness for C1 at the three-node do/doer/doing store. -/
theorem c1_lex_sort_preserves_edges_witness :
    idsCanonical [⟨0, "do".data, "base".data, "V".data, none, []⟩,
      ⟨1, "doer".data, "agent".data, "N".data, some 0, []⟩,
      ⟨2, "doing".data, "gerund".data, "N".data, some 0, []⟩] = true ∧
    parentsInRange [⟨0, "do".data, "base".data, "V".data, none, []⟩,
      ⟨1, "doer".data, "agent".data, "N".data, some 0, []⟩,
      ⟨2, "doing".data, "gerund".data, "N".data, some 0, []⟩] = true ∧
    ∃ d, lexSortData [⟨0, "do".data, "base".data, "V".data, none, []⟩,
        ⟨1, "doer".data, "agent".data, "N".data, some 0, []⟩,
        ⟨2, "doing".data, "gerund".data, "N".data, some 0, []⟩] = .ok d ∧
      ∀ e ∈ storeEdges [⟨0, "do".data, "base".data, "V".data, none, []⟩,
        ⟨1, "doer".data, "agent".data, "N".data, some 0, []⟩,
        ⟨2, "doing".data, "gerund".data, "N".data, some 0, []⟩], e ∈ storeEdges d :=
  ⟨by decide, by decide,
    c1_lex_sort_preserves_edges
      [⟨0, "do".data, "base".data, "V".data, none, []⟩,
        ⟨1, "doer".data, "agent".data, "N".data, some 0, []⟩,
        ⟨2, "doing".data, "gerund".data, "N".data, some 0, []⟩]
      (by decide) (by decide)⟩

end Derinet
